import Mathlib

/-!
# Verification of the Automations repository

A shallow embedding, in Lean 4, of the pure computational core of the two
scripts in the repository:

* `src/g4a-automation.js` — a scheduled analytics-report generator
  (`parseGA4Response`, `enrichMetrics`, `calculatePeriodChanges`);
* `src/unnamed/part_000` — a conversational document assistant
  (`doPost`, `processMessage`, `extractDocumentId`, `chunkText`,
  `analyzeInChunks`, `detectUserIntent`).

JS strings are modelled as `List Char`, JS numbers as `ℚ`, JS objects used as
string-keyed records as association lists `List (List Char × JsVal)`, and JS
exceptions as `Except` with the error message as payload.  A JS division,
which yields `NaN` or `±Infinity` (not a finite number) on a zero denominator,
is modelled as `Option ℚ` with `none` for the non-finite outcomes.
-/

namespace Automations

/-- A JS value stored in a metric row: a number or a string.  (The rows built
by `parseGA4Response` contain only these two kinds of values.) -/
inductive JsVal where
  | num (q : ℚ)
  | str (s : List Char)
deriving DecidableEq, Inhabited

/-- A JS object used as a string-keyed record, in property insertion order. -/
abbrev Row := List (List Char × JsVal)

/-- Property read `row[k]`: the first binding of `k`, if any
(`undefined` is `none`). -/
def lookupField (row : Row) (k : List Char) : Option JsVal :=
  (row.find? (fun p => decide (p.1 = k))).map (fun p => p.2)

/-- Property write `row[k] = v` (also the semantics of a later key in an
object literal spread): an existing key keeps its position and gets the new
value; a fresh key is appended at the end. -/
def setField (row : Row) (k : List Char) (v : JsVal) : Row :=
  if row.any (fun p => decide (p.1 = k)) then
    row.map (fun p => if p.1 = k then (k, v) else p)
  else row ++ [(k, v)]

/-- JS `row.k || 0` on a metric row: the numeric value when the field holds a
number (`0` stays `0`, as in JS where `0` is falsy and `|| 0` yields `0`
again); `0` when the field is absent.  Metric rows hold numbers in the metric
fields, so the string case (JS would keep the truthy string) is mapped to `0`
and is never relied on by any theorem. -/
def numOr0 (row : Row) (k : List Char) : ℚ :=
  match lookupField row k with
  | some (JsVal.num q) => q
  | _ => 0

/-- JS `row.k || 1` on a metric row: the numeric value when present and
nonzero (nonzero numbers are truthy), `1` when the field is absent or `0`. -/
def numOr1 (row : Row) (k : List Char) : ℚ :=
  match lookupField row k with
  | some (JsVal.num q) => if q = 0 then 1 else q
  | _ => 1

/-- JS division restricted to finite results: `a / b` when `b ≠ 0`, `none`
when `b = 0` (JS produces `NaN` or `±Infinity` there). -/
def jsDiv (a b : ℚ) : Option ℚ :=
  if b = 0 then none else some (a / b)

-- Field-name constants used by the analytics script.
def sessionsK : List Char := "sessions".data
def newUsersK : List Char := "newUsers".data
def totalUsersK : List Char := "totalUsers".data
def averageSessionDurationK : List Char := "averageSessionDuration".data
def userEngagementDurationK : List Char := "userEngagementDuration".data
def eventsPerSessionK : List Char := "eventsPerSession".data
def bounceRateK : List Char := "bounceRate".data
def returningUsersK : List Char := "returningUsers".data
def avgEngagementPerSessionK : List Char := "avgEngagementPerSession".data
def channelK : List Char := "sessionDefaultChannelGrouping".data

/-- `enrichMetrics` of `src/g4a-automation.js` on a single row:
`{...row, returningUsers: (row.totalUsers || 0) - (row.newUsers || 0),
avgEngagementPerSession: row.sessions > 0 ?
(row.userEngagementDuration || 0) / row.sessions : 0}`.  Both added values are
computed from the original row; the guarded division is a plain `ℚ` division
because the guard `row.sessions > 0` makes the denominator nonzero. -/
def enrichRow (row : Row) : Row :=
  let returningUsers := numOr0 row totalUsersK - numOr0 row newUsersK
  let avgEngagementPerSession :=
    if 0 < numOr0 row sessionsK then
      numOr0 row userEngagementDurationK / numOr0 row sessionsK
    else 0
  setField (setField row returningUsersK (JsVal.num returningUsers))
    avgEngagementPerSessionK (JsVal.num avgEngagementPerSession)

/-- `enrichMetrics` (src/g4a-automation.js line 609): map `enrichRow` over the
data. -/
def enrichMetrics (data : List Row) : List Row :=
  data.map enrichRow

/-- The inner `calculateChange` of `calculatePeriodChanges`
(src/g4a-automation.js line 625): `if (prev === 0) return curr > 0 ? 100 : 0;
return ((curr - prev) / prev * 100);`. -/
def calculateChange (curr prev : ℚ) : Option ℚ :=
  if prev = 0 then some (if 0 < curr then 100 else 0)
  else (jsDiv (curr - prev) prev).map (fun x => x * 100)

/-- The `changes` record built by `calculatePeriodChanges`, one entry per
metric the script compares. -/
structure Changes where
  sessions : Option ℚ
  newUsers : Option ℚ
  totalUsers : Option ℚ
  averageSessionDuration : Option ℚ
  avgEngagementPerSession : Option ℚ
  eventsPerSession : Option ℚ
  bounceRate : Option ℚ
deriving DecidableEq

/-- One output row of `calculatePeriodChanges`: the enriched current row
spread together with the `changes` record. -/
structure PeriodRow where
  base : Row
  changes : Changes
deriving DecidableEq

/-- `calculatePeriodChanges` (src/g4a-automation.js lines 620–646). -/
def calculatePeriodChanges (current previous : List Row) : List PeriodRow :=
  current.map (fun currentRow =>
    let channelName := lookupField currentRow channelK
    let previousRow :=
      (previous.find? (fun p => decide (lookupField p channelK = channelName))).getD []
    { base := (enrichMetrics [currentRow]).getD 0 []
      changes :=
        { sessions :=
            calculateChange (numOr0 currentRow sessionsK) (numOr0 previousRow sessionsK)
          newUsers :=
            calculateChange (numOr0 currentRow newUsersK) (numOr0 previousRow newUsersK)
          totalUsers :=
            calculateChange (numOr0 currentRow totalUsersK) (numOr0 previousRow totalUsersK)
          averageSessionDuration :=
            calculateChange (numOr0 currentRow averageSessionDurationK)
              (numOr0 previousRow averageSessionDurationK)
          avgEngagementPerSession :=
            calculateChange
              (numOr0 currentRow userEngagementDurationK / numOr1 currentRow sessionsK)
              (numOr0 previousRow userEngagementDurationK / numOr1 previousRow sessionsK)
          eventsPerSession :=
            calculateChange (numOr0 currentRow eventsPerSessionK)
              (numOr0 previousRow eventsPerSessionK)
          bounceRate :=
            calculateChange (numOr0 currentRow bounceRateK)
              (numOr0 previousRow bounceRateK) } })

/-- `p` holds of some suffix of the string (the empty suffix included). -/
def existsSuffix (p : List Char → Bool) : List Char → Bool
  | [] => p []
  | c :: rest => p (c :: rest) || existsSuffix p rest

/-- JS `String.prototype.includes(pat)`: some suffix starts with `pat`. -/
def includesStr (pat s : List Char) : Bool :=
  existsSuffix (fun t => pat.isPrefixOf t) s

/-- The whitespace characters JS `parseInt` / `parseFloat` / `trim` skip
(the ASCII ones; exotic Unicode space is not used by this repository). -/
def isJsSpace (c : Char) : Bool :=
  c = ' ' || c = '\t' || c = '\n' || c = '\r' || c = '\x0b' || c = '\x0c'

/-- Numeric value of a (hex) digit character. -/
def hexVal (c : Char) : ℕ :=
  if '0' ≤ c ∧ c ≤ '9' then c.toNat - '0'.toNat
  else if 'a' ≤ c ∧ c ≤ 'f' then c.toNat - 'a'.toNat + 10
  else if 'A' ≤ c ∧ c ≤ 'F' then c.toNat - 'A'.toNat + 10
  else 0

/-- Value of a digit string in the given base. -/
def natOfDigits (base : ℕ) (ds : List Char) : ℕ :=
  ds.foldl (fun acc c => acc * base + hexVal c) 0

/-- Hexadecimal digit test. -/
def isHexDigit (c : Char) : Bool :=
  ('0' ≤ c && c ≤ '9') || ('a' ≤ c && c ≤ 'f') || ('A' ≤ c && c ≤ 'F')

/-- JS `parseInt(s)` with no radix argument: skip leading whitespace, an
optional sign, then either a `0x`/`0X` hexadecimal literal or decimal digits;
trailing junk is ignored; no digits at all gives `NaN` (modelled `none`). -/
def parseIntJS (s : List Char) : Option ℤ :=
  let t := s.dropWhile isJsSpace
  let sign : ℤ := if t.head? = some '-' then -1 else 1
  let t1 := match t with
    | c :: r => if c = '-' ∨ c = '+' then r else c :: r
    | [] => []
  match t1 with
  | '0' :: c :: r =>
    if c = 'x' ∨ c = 'X' then
      let ds := r.takeWhile isHexDigit
      if ds = [] then none else some (sign * (natOfDigits 16 ds : ℤ))
    else
      let ds := (('0' : Char) :: c :: r).takeWhile Char.isDigit
      some (sign * (natOfDigits 10 ds : ℤ))
  | _ =>
    let ds := t1.takeWhile Char.isDigit
    if ds = [] then none else some (sign * (natOfDigits 10 ds : ℤ))

/-- JS `parseFloat(s)`: skip leading whitespace, optional sign, decimal
digits with an optional fractional part, and an optional well-formed
exponent (a malformed exponent is ignored, as JS parses the longest valid
prefix); no mantissa digit at all gives `NaN` (modelled `none`).  JS would
also accept `Infinity` here; that value is not a finite number and is folded
into the unparseable case, which no claim distinguishes. -/
def parseFloatJS (s : List Char) : Option ℚ :=
  let t := s.dropWhile isJsSpace
  let sgn : ℚ := if t.head? = some '-' then -1 else 1
  let t1 := match t with
    | c :: r => if c = '-' ∨ c = '+' then r else c :: r
    | [] => []
  let intPart := t1.takeWhile Char.isDigit
  let t2 := t1.drop intPart.length
  let fracPart := match t2 with
    | '.' :: r => r.takeWhile Char.isDigit
    | _ => []
  let t3 := match t2 with
    | '.' :: r => r.drop fracPart.length
    | _ => t2
  if intPart = [] ∧ fracPart = [] then none
  else
    let mant : ℚ :=
      (natOfDigits 10 intPart : ℚ) + (natOfDigits 10 fracPart : ℚ) / (10 : ℚ) ^ fracPart.length
    let e : ℤ := match t3 with
      | c :: r =>
        if c = 'e' ∨ c = 'E' then
          let sr : ℤ × List Char := match r with
            | '-' :: r2 => (-1, r2)
            | '+' :: r2 => (1, r2)
            | _ => (1, r)
          let eds := sr.2.takeWhile Char.isDigit
          if eds = [] then 0 else sr.1 * (natOfDigits 10 eds : ℤ)
        else 0
      | [] => 0
    some (sgn * mant * (10 : ℚ) ^ e)

/-- A GA4 dimension or metric header: only its `name` is consumed. -/
structure GA4Header where
  name : List Char
deriving DecidableEq

/-- A GA4 report row: optional arrays of dimension / metric value strings
(each entry models the `.value` of the API's value objects). -/
structure GA4Row where
  dimensionValues : Option (List (List Char))
  metricValues : Option (List (List Char))
deriving DecidableEq

/-- A GA4 `runReport` response, as far as `parseGA4Response` reads it. -/
structure GA4Response where
  rows : Option (List GA4Row)
  dimensionHeaders : Option (List GA4Header)
  metricHeaders : Option (List GA4Header)
deriving DecidableEq

/-- The header-name dispatch of `parseGA4Response` (src/g4a-automation.js
lines 590–596): names containing `Rate`, `Duration` or `Per` go through
`parseFloat(value) || 0`, all others through `parseInt(value) || 0`.  The
`|| 0` maps `NaN` to `0` (and `0` to itself). -/
def metricValueOf (name raw : List Char) : ℚ :=
  if includesStr "Rate".data name || includesStr "Duration".data name ||
      includesStr "Per".data name then
    (parseFloatJS raw).getD 0
  else
    ((parseIntJS raw).map (fun z => (z : ℚ))).getD 0

/-- The `dimensionHeaders.forEach` loop of `parseGA4Response`: assign
`result[header.name] = row.dimensionValues[index].value` in order.  Indexing
past the end of the value array makes JS dereference `undefined`, which
throws; that is the `error` case. -/
def dimFields : List GA4Header → List (List Char) → Row → Except (List Char) Row
  | [], _, acc => Except.ok acc
  | _ :: _, [], _ => Except.error ("TypeError: cannot read value of undefined".data)
  | h :: hs, v :: vs, acc => dimFields hs vs (setField acc h.name (JsVal.str v))

/-- The `metricHeaders.forEach` loop of `parseGA4Response`: assign
`result[header.name]` to the parsed numeric value, in order. -/
def metricFields : List GA4Header → List (List Char) → Row → Except (List Char) Row
  | [], _, acc => Except.ok acc
  | _ :: _, [], _ => Except.error ("TypeError: cannot read value of undefined".data)
  | h :: hs, v :: vs, acc =>
    metricFields hs vs (setField acc h.name (JsVal.num (metricValueOf h.name v)))

/-- The per-row body of `parseGA4Response`: dimensions (when both the row
values and the headers are present), then metrics. -/
def parseGA4Row (resp : GA4Response) (row : GA4Row) : Except (List Char) Row :=
  match (match row.dimensionValues, resp.dimensionHeaders with
         | some vals, some hs => dimFields hs vals []
         | _, _ => Except.ok []) with
  | Except.error e => Except.error e
  | Except.ok r1 =>
    match row.metricValues, resp.metricHeaders with
    | some vals, some hs => metricFields hs vals r1
    | _, _ => Except.ok r1

/-- `parseGA4Response` (src/g4a-automation.js lines 576–604): a missing or
empty `rows` array yields `[]`; otherwise every row is parsed in order. -/
def parseGA4Response (resp : GA4Response) : Except (List Char) (List Row) :=
  match resp.rows with
  | none => Except.ok []
  | some [] => Except.ok []
  | some rows => rows.mapM (parseGA4Row resp)

/-- JS `text.split('\n\n')`: split on the two-character separator,
leftmost-first and non-overlapping.  The empty string yields `[[]]`, as in
JS where `''.split('\n\n')` is `['']`. -/
def splitNN : List Char → List (List Char)
  | [] => [[]]
  | '\n' :: '\n' :: rest => [] :: splitNN rest
  | c :: rest =>
    match splitNN rest with
    | [] => [[c]]
    | p :: ps => (c :: p) :: ps

/-- JS `chunks.join('\n\n')` / concatenation separated by `'\n\n'`. -/
def joinNN : List (List Char) → List Char
  | [] => []
  | [p] => p
  | p :: q :: ps => p ++ '\n' :: '\n' :: joinNN (q :: ps)

/-- JS `String.prototype.trim`: strip leading, then trailing whitespace. -/
def trimChars (l : List Char) : List Char :=
  List.rdropWhile isJsSpace (List.dropWhile isJsSpace l)

/-- One `forEach` step of `chunkText` (src/unnamed/part_000 lines 790–797).
The state is `(chunks, currentChunk)`; JS pushes `currentChunk.trim()` and
restarts from the paragraph when appending would exceed `maxLength` and the
current chunk is nonempty (truthy), otherwise appends the paragraph with a
`'\n\n'` joint (no joint when the current chunk is empty). -/
def chunkStep (maxLength : ℕ) (state : List (List Char) × List Char)
    (para : List Char) : List (List Char) × List Char :=
  if maxLength < (state.2 ++ para).length ∧ state.2 ≠ [] then
    (state.1 ++ [trimChars state.2], para)
  else
    (state.1, if state.2 = [] then para else state.2 ++ '\n' :: '\n' :: para)

/-- `chunkText` (src/unnamed/part_000 lines 785–804): fold the step over the
paragraphs, then push the trimmed final chunk when it is nonempty. -/
def chunkText (text : List Char) (maxLength : ℕ) : List (List Char) :=
  let paragraphs := splitNN text
  let st := paragraphs.foldl (chunkStep maxLength) ([], [])
  if st.2 ≠ [] then st.1 ++ [trimChars st.2] else st.1

/-- The loop counter values of the chunking loop of `analyzeInChunks`
(src/unnamed/part_000 lines 1137–1139):
`for (let i = 0; i < text.length; i += 10000 - 500)`.  The loop is embedded
with a fuel argument bounding the iteration count; `windowStarts` passes
`len + 1`, which exceeds the number of iterations for every `len`. -/
def windowStartsGo (len : ℕ) : ℕ → ℕ → List ℕ
  | _, 0 => []
  | i, fuel + 1 => if i < len then i :: windowStartsGo len (i + 9500) fuel else []

/-- The window start positions produced by `analyzeInChunks` for a text of
`len` characters. -/
def windowStarts (len : ℕ) : List ℕ := windowStartsGo len 0 (len + 1)

/-- The length of the window starting at `i`:
`text.substring(i, Math.min(i + 10000, text.length))` has length
`min(i + 10000, len) - i`. -/
def windowLen (len i : ℕ) : ℕ := min (i + 10000) len - i

/-- One issue parsed out of a model response by `analyzeInChunks`
(src/unnamed/part_000 lines 1152–1161): an exact matched substring plus the
explanation fields. -/
structure Issue where
  text : List Char
  issue : List Char
  suggestion : List Char
  rule : List Char
deriving DecidableEq

/-- The per-issue accumulation step of `analyzeInChunks`
(src/unnamed/part_000 lines 1182–1188): the state is
`(seenTexts, allIssues)`; an issue whose trimmed text was already seen is
dropped, otherwise its trimmed text is recorded and the issue appended. -/
def dedupIssuesStep (state : List (List Char) × List Issue) (issue : Issue) :
    List (List Char) × List Issue :=
  let textKey := trimChars issue.text
  if textKey ∈ state.1 then state
  else (textKey :: state.1, state.2 ++ [issue])

/-- The chunk loop of `analyzeInChunks` folding every chunk's parsed issue
list into the deduplicated `allIssues` (a chunk whose model call failed or
returned no JSON object contributes the empty list). -/
def dedupIssues (chunkResults : List (List Issue)) : List Issue :=
  (chunkResults.foldl (fun st chunk => chunk.foldl dedupIssuesStep st) ([], [])).2

/-- The character class `[a-zA-Z0-9-_]` of the document-ID regexes. -/
def isIdChar (c : Char) : Bool :=
  ('a' ≤ c && c ≤ 'z') || ('A' ≤ c && c ≤ 'Z') || ('0' ≤ c && c ≤ '9') ||
    c = '-' || c = '_'

/-- The regex `/\/document\/d\/([a-zA-Z0-9-_]+)/` matches at the start of
`s`: the literal `/document/d/` (12 characters) followed by at least one
ID character. -/
def docMatchHere (s : List Char) : Bool :=
  ("/document/d/".data).isPrefixOf s &&
    (match s.drop 12 with
     | c :: _ => isIdChar c
     | [] => false)

/-- Scan for the leftmost match of the first pattern of `extractDocumentId`
and capture the maximal ID-character run after `/document/d/` — the
semantics of `url.match(/\/document\/d\/([a-zA-Z0-9-_]+)/)[1]`. -/
def matchDocPattern : List Char → Option (List Char)
  | [] => none
  | c :: rest =>
    if docMatchHere (c :: rest) then
      some (((c :: rest).drop 12).takeWhile isIdChar)
    else matchDocPattern rest

/-- `extractDocumentId` (src/unnamed/part_000 lines 510–521): try the URL
pattern first, then the bare-ID pattern `/^([a-zA-Z0-9-_]+)$/` (which needs
at least one character), otherwise `null`. -/
def extractDocumentId (url : List Char) : Option (List Char) :=
  match matchDocPattern url with
  | some id => some id
  | none => if url ≠ [] ∧ url.all isIdChar then some url else none

/-- Search for the literal `b` scanning only over characters the regex `.`
may match (no `'\n'`), then run the continuation on the remainder after `b`;
a failed continuation backtracks to a later occurrence of `b`.  This is the
boolean semantics of `.*b⟨rest⟩` inside the JS regexes below. -/
def cleanSearchThen (b : List Char) (k : List Char → Bool) : List Char → Bool
  | [] => b.isPrefixOf [] && k []
  | c :: rest =>
    (b.isPrefixOf (c :: rest) && k ((c :: rest).drop b.length)) ||
      (!(c = '\n') && cleanSearchThen b k rest)

/-- Boolean match of the JS regex `/a.*b/` on `s` (the dot does not match a
newline). -/
def matchAthenB (a b s : List Char) : Bool :=
  existsSuffix (fun t => a.isPrefixOf t &&
    cleanSearchThen b (fun _ => true) (t.drop a.length)) s

/-- The pattern of the `extract_new_docs` branch of `detectUserIntent`:
`/extract|scan|check.*new|update.*docs|newly added|get.*new.*documents/`. -/
def extractPat (s : List Char) : Bool :=
  includesStr ("extract".data) s || includesStr ("scan".data) s ||
  matchAthenB ("check".data) ("new".data) s ||
  matchAthenB ("update".data) ("docs".data) s ||
  includesStr ("newly added".data) s ||
  existsSuffix (fun t => ("get".data).isPrefixOf t &&
    cleanSearchThen ("new".data)
      (cleanSearchThen ("documents".data) (fun _ => true)) (t.drop 3)) s

/-- The pattern of the `analyze_with_comments` branch:
`/analyze.*comment|review.*comment|check.*comment|add.*comment|highlight.*issue/`. -/
def analyzeCommentsPat (s : List Char) : Bool :=
  matchAthenB ("analyze".data) ("comment".data) s ||
  matchAthenB ("review".data) ("comment".data) s ||
  matchAthenB ("check".data) ("comment".data) s ||
  matchAthenB ("add".data) ("comment".data) s ||
  matchAthenB ("highlight".data) ("issue".data) s

/-- The pattern of the `review_document` branch:
`/review|analyze|check|feedback|docs\.google\.com/`. -/
def reviewPat (s : List Char) : Bool :=
  includesStr ("review".data) s || includesStr ("analyze".data) s ||
  includesStr ("check".data) s || includesStr ("feedback".data) s ||
  includesStr ("docs.google.com".data) s

/-- The pattern of the `sync_to_pinecone` branch:
`/sync|upload.*pinecone|index|embed/`. -/
def syncPat (s : List Char) : Bool :=
  includesStr ("sync".data) s || matchAthenB ("upload".data) ("pinecone".data) s ||
  includesStr ("index".data) s || includesStr ("embed".data) s

/-- A character of the regex class `["']`. -/
def isQuote (c : Char) : Bool := c = '"' || c.toNat = 39

/-- Scan (over non-newline characters, per `.*`) for a quote followed by at
least one non-quote character and a closing quote — the
`.*["']([^"']+)["']` part of the document-name pattern. -/
def quoteScan : List Char → Bool
  | [] => false
  | c :: rest =>
    (isQuote c && !(rest.takeWhile (fun d => !isQuote d)).isEmpty &&
      (match rest.drop (rest.takeWhile (fun d => !isQuote d)).length with
       | d :: _ => isQuote d
       | [] => false)) ||
    (!(c = '\n') && quoteScan rest)

/-- `\s*` then the literal `document` (the tail of `\s+document` after its
first whitespace character). -/
def wsThenDoc : List Char → Bool
  | [] => false
  | c :: rest =>
    ("document".data).isPrefixOf (c :: rest) || (isJsSpace c && wsThenDoc rest)

/-- After at least one character of the lazy group `(.+?)`: either begin the
`\s+document` tail or extend the group by one more non-newline character. -/
def afterM : List Char → Bool
  | [] => false
  | c :: rest => (isJsSpace c && wsThenDoc rest) || (!(c = '\n') && afterM rest)

/-- The group `(.+?)` needs at least one (non-newline) character. -/
def startM : List Char → Bool
  | [] => false
  | c :: rest => !(c = '\n') && afterM rest

/-- After the first whitespace of `about\s+`: either start the group here or
consume more whitespace. -/
def altTwoAfterWs : List Char → Bool
  | [] => false
  | c :: rest => startM (c :: rest) || (isJsSpace c && altTwoAfterWs rest)

/-- Boolean match of the document-name pattern of `detectUserIntent`:
`/(?:document|doc|file).*["']([^"']+)["']|about\s+(.+?)\s+document/`.
(`document` begins with `doc`, so the keyword alternation reduces to `doc`
or `file` for the match question.)  The captured name is consumed only as
the `query_specific_doc` payload, which no claim inspects, so the capture
itself is not modelled. -/
def docNamePat (s : List Char) : Bool :=
  existsSuffix (fun t =>
    (("doc".data).isPrefixOf t && quoteScan (t.drop 3)) ||
    (("file".data).isPrefixOf t && quoteScan (t.drop 4))) s ||
  existsSuffix (fun t => ("about".data).isPrefixOf t &&
    (match t.drop 5 with
     | c :: rest => isJsSpace c && altTwoAfterWs rest
     | [] => false)) s

/-- The pattern of the `analyze_tabs` branch:
`/tabs?|sections?|structure|outline/` (optional plural `s` adds nothing to
the match question). -/
def tabsPat (s : List Char) : Bool :=
  includesStr ("tab".data) s || includesStr ("section".data) s ||
  includesStr ("structure".data) s || includesStr ("outline".data) s

/-- The pattern of the `query_documents` branch:
`/how many|list|show|find|search|documents?|comments?|revisions?/`. -/
def queryDocsPat (s : List Char) : Bool :=
  includesStr ("how many".data) s || includesStr ("list".data) s ||
  includesStr ("show".data) s || includesStr ("find".data) s ||
  includesStr ("search".data) s || includesStr ("document".data) s ||
  includesStr ("comment".data) s || includesStr ("revision".data) s

/-- The Google-Docs URL literal of
`/https:\/\/docs\.google\.com\/document\/d\/([a-zA-Z0-9-_]+)/`
(35 characters). -/
def urlLit : List Char := "https://docs.google.com/document/d/".data

/-- The URL pattern matches at the start of `s`: the 35-character literal
followed by at least one ID character. -/
def docUrlMatchHere (s : List Char) : Bool :=
  urlLit.isPrefixOf s &&
    (match s.drop 35 with
     | c :: _ => isIdChar c
     | [] => false)

/-- Leftmost match of the URL pattern over the original (non-lowercased)
message, capturing the maximal ID run. -/
def matchDocsUrl : List Char → Option (List Char)
  | [] => none
  | c :: rest =>
    if docUrlMatchHere (c :: rest) then
      some (((c :: rest).drop 35).takeWhile isIdChar)
    else matchDocsUrl rest

/-- The intent values `detectUserIntent` can return (the `type` field of
the JS result object, with the captured document ID where one is
attached). -/
inductive Intent where
  | extract_new_docs
  | analyze_with_comments (docId : List Char)
  | analyze_with_comments_prompt
  | review_document (docId : List Char)
  | sync_to_pinecone
  | query_specific_doc
  | analyze_tabs
  | query_documents
  | general_chat
deriving DecidableEq

/-- `detectUserIntent` (src/unnamed/part_000 lines 1637–1693).  All keyword
patterns are tested against the lowercased message, the URL pattern against
the original message.  When the review pattern matches but the message holds
no URL, JS falls through to the later branches — hence the `none` case of
the review match continues the chain. -/
def detectUserIntent (message : List Char) : Intent :=
  let lower := message.map Char.toLower
  if extractPat lower then Intent.extract_new_docs
  else if analyzeCommentsPat lower then
    (match matchDocsUrl message with
     | some id => Intent.analyze_with_comments id
     | none => Intent.analyze_with_comments_prompt)
  else
    match (if reviewPat lower then matchDocsUrl message else none) with
    | some id => Intent.review_document id
    | none =>
      if syncPat lower then Intent.sync_to_pinecone
      else if docNamePat lower then Intent.query_specific_doc
      else if tabsPat lower then Intent.analyze_tabs
      else if queryDocsPat lower then Intent.query_documents
      else Intent.general_chat

/-- One entry of the `conversationHistory` array. -/
structure HistMsg where
  role : List Char
  content : List Char
deriving DecidableEq

/-- The object `readGoogleDoc` returns: `{success, title, text, documentId}`
on success, `{success: false, error}` from its catch. -/
structure DocContent where
  success : Bool
  title : List Char
  text : List Char
  documentId : List Char
  error : List Char
deriving DecidableEq

/-- The context record built by `gatherContext` (src/unnamed/part_000 lines
130–159); rule entries are kept as opaque strings. -/
structure GatherContext where
  pineconeRules : List (List Char)
  driveRules : List (List Char)
  relevantDocs : List (List Char)
deriving DecidableEq

/-- The response object of the chat entry points: `success` and `message`
are always present; the optional fields appear only on particular success
paths. -/
structure ChatResult where
  success : Bool
  message : List Char
  context : Option GatherContext := none
  documentTitle : Option (List Char) := none
  rulesUsed : Option (ℕ × ℕ) := none
deriving DecidableEq

/-- The external boundary of the chat script, as oracles.  An `Except`
result models a call that may throw (payload: the JS error text); a plain
result models an in-repo callee that is total because it catches everything
itself (`queryPinecone`, `searchRulesInDrive`, `listRuleDocuments` all
return `[]` from their catch handlers).  `analyzeDoc` stands for
`analyzeDocumentWithRules` (string templating plus a throwing `callGemini`)
and `generateResponse` for `generateConversationalResponse`; both may
throw.  `parsePost` stands for `JSON.parse(e.postData.contents)` plus the
field reads of `doPost`. -/
structure ChatEnv where
  parsePost : List Char → Except (List Char) (List Char × List HistMsg)
  openDoc : List Char → Except (List Char) (List Char × List Char)
  embed : List Char → Except (List Char) (List ℚ)
  queryPinecone : List ℚ → ℕ → List (List Char)
  searchDrive : List Char → List (List Char)
  listDocs : List (List Char)
  analyzeDoc : DocContent → List (List Char) → List (List Char) → List HistMsg →
    Except (List Char) (List Char)
  generateResponse : List Char → GatherContext → List HistMsg →
    Except (List Char) (List Char)

/-- `readGoogleDoc` (src/unnamed/part_000 lines 523–542): its try/catch
turns a throwing `DocumentApp.openById`/read into `{success: false,
error}`. -/
def readGoogleDoc (env : ChatEnv) (docId : List Char) : DocContent :=
  match env.openDoc docId with
  | Except.ok tt => ⟨true, tt.1, tt.2, docId, []⟩
  | Except.error e => ⟨false, [], [], [], e⟩

/-- `retrieveFromPinecone` (src/unnamed/part_000 lines 593–602): embed the
first 1000 characters, then query; the catch converts a throwing
`getEmbedding` into `[]` (`queryPinecone` is total by its own catches). -/
def retrieveFromPinecone (env : ChatEnv) (text : List Char) (topK : ℕ) :
    List (List Char) :=
  match env.embed (text.take 1000) with
  | Except.ok v => env.queryPinecone v topK
  | Except.error _ => []

/-- `gatherContext` (src/unnamed/part_000 lines 130–159).  Each of its three
try/catch blocks wraps a step that is already total in this model (each
step catches internally), so the handlers assigning `[]` are dead here. -/
def gatherContext (env : ChatEnv) (query : List Char) : GatherContext :=
  { pineconeRules := retrieveFromPinecone env query 5
    driveRules := env.searchDrive query
    relevantDocs := env.listDocs }

/-- `formatErrorMessage` (src/unnamed/part_000 lines 725–729). -/
def formatErrorMessage (docId err : List Char) : List Char :=
  "DOCUMENT UNAVAILABLE: ".data ++ docId ++ "\nREASON: ".data ++ err ++
    "\nACTION REQUIRED: Please grant access to this document or share it publicly. I cannot analyze content I cannot read.".data

/-- `reviewDocument` (src/unnamed/part_000 lines 260–300): failed read
yields `{success: false, message: formatErrorMessage(...)}`; a throw out of
the analysis is caught into `{success: false, message: 'Error: ...'}`;
otherwise the analysis text is returned with the rule-usage counts. -/
def reviewDocument (env : ChatEnv) (docId : List Char) (hist : List HistMsg) :
    ChatResult :=
  let docContent := readGoogleDoc env docId
  if docContent.success = false then
    { success := false, message := formatErrorMessage docId docContent.error }
  else
    let pineconeRules := retrieveFromPinecone env docContent.text 10
    let driveRules := env.searchDrive docContent.text
    match env.analyzeDoc docContent pineconeRules driveRules hist with
    | Except.ok analysis =>
      { success := true, message := analysis,
        documentTitle := some docContent.title,
        rulesUsed := some (pineconeRules.length, driveRules.length) }
    | Except.error e => { success := false, message := "Error: ".data ++ e }

/-- `handleConversationalQuery` (src/unnamed/part_000 lines 104–128): a
throw out of the response generation is caught into `{success: false,
message: 'Error processing your question: ...'}`. -/
def handleConversationalQuery (env : ChatEnv) (msg : List Char)
    (hist : List HistMsg) : ChatResult :=
  let context := gatherContext env msg
  match env.generateResponse msg context hist with
  | Except.ok response =>
    { success := true, message := response, context := some context }
  | Except.error e =>
    { success := false, message := "Error processing your question: ".data ++ e }

/-- `isDocumentReviewRequest` (src/unnamed/part_000 lines 90–98). -/
def isDocumentReviewRequest (message : List Char) : Bool :=
  [("review".data), ("analyze".data), ("check".data), ("feedback".data),
   ("docs.google.com".data), ("document/d/".data), ("look at this doc".data),
   ("can you review".data)].any
    (fun kw => includesStr kw (message.map Char.toLower))

/-- `processMessage` (src/unnamed/part_000 lines 66–88): review requests
with an extractable document ID go to `reviewDocument`, everything else
(including review requests without an ID) to `handleConversationalQuery`.
Both callees are total by their own catches, so the outer catch of
`processMessage` is unreachable in this model. -/
def processMessage (env : ChatEnv) (msg : List Char) (hist : List HistMsg) :
    ChatResult :=
  if isDocumentReviewRequest msg then
    match extractDocumentId msg with
    | some docId => reviewDocument env docId hist
    | none => handleConversationalQuery env msg hist
  else handleConversationalQuery env msg hist

/-- `doPost` (src/unnamed/part_000 lines 48–60): a throwing body parse is
caught into `{success: false, message: error.toString()}`; otherwise the
`processMessage` result object is serialised back (modelled as the object
itself). -/
def doPost (env : ChatEnv) (body : List Char) : ChatResult :=
  match env.parsePost body with
  | Except.ok mh => processMessage env mh.1 mh.2
  | Except.error e => { success := false, message := e }

/-- A concrete environment whose embedding call throws while response
generation succeeds: it separates "some internal step threw" from "the
request failed". -/
def chatEnvCE : ChatEnv :=
  { parsePost := fun _ => Except.error ("bad json".data)
    openDoc := fun _ => Except.error ("no doc".data)
    embed := fun _ => Except.error ("embedding down".data)
    queryPinecone := fun _ _ => []
    searchDrive := fun _ => []
    listDocs := []
    analyzeDoc := fun _ _ _ _ => Except.error ("gemini down".data)
    generateResponse := fun _ _ _ => Except.ok ("hi".data) }

/-- `calculateChange` always yields a finite number. -/
lemma calculateChange_isSome (curr prev : ℚ) : (calculateChange curr prev).isSome := by
  unfold calculateChange jsDiv
  by_cases h : prev = 0 <;> simp [h]

/-- The `|| 1` guard makes the denominator of the engagement-per-session
ratio nonzero. -/
lemma numOr1_ne_zero (row : Row) (k : List Char) : numOr1 row k ≠ 0 := by
  unfold numOr1
  rcases lookupField row k with _ | v
  · exact one_ne_zero
  · rcases v with q | s
    · by_cases h : q = 0 <;> simp [h]
    · exact one_ne_zero

/-- C1: for non-negative `curr` and `prev`, `calculateChange` inside
`calculatePeriodChanges` yields `100` when `prev = 0 < curr`, `0` when
`prev = curr = 0`, and `(curr - prev) / prev * 100` when `prev > 0`; and
every entry of the `changes` record of every row produced by
`calculatePeriodChanges` is a well-defined (finite) number — the division is
never by zero, including the `|| 1`-guarded engagement ratio. -/
theorem C1_calculatePeriodChanges_changes_welldefined :
    (∀ curr prev : ℚ, 0 ≤ curr → 0 ≤ prev →
      (prev = 0 → 0 < curr → calculateChange curr prev = some 100) ∧
      (prev = 0 → curr = 0 → calculateChange curr prev = some 0) ∧
      (0 < prev → calculateChange curr prev = some ((curr - prev) / prev * 100))) ∧
    (∀ current previous : List Row, ∀ pr ∈ calculatePeriodChanges current previous,
      pr.changes.sessions.isSome ∧ pr.changes.newUsers.isSome ∧
      pr.changes.totalUsers.isSome ∧ pr.changes.averageSessionDuration.isSome ∧
      pr.changes.avgEngagementPerSession.isSome ∧ pr.changes.eventsPerSession.isSome ∧
      pr.changes.bounceRate.isSome) ∧
    (∀ (row : Row) (k : List Char), numOr1 row k ≠ 0) := by
  refine ⟨?_, ?_, fun row k => numOr1_ne_zero row k⟩
  · intro curr prev _ _
    refine ⟨?_, ?_, ?_⟩
    · intro hp hc
      simp [calculateChange, hp, hc]
    · intro hp hc
      simp [calculateChange, hp, hc]
    · intro hp
      simp [calculateChange, jsDiv, ne_of_gt hp]
  · intro current previous pr hpr
    unfold calculatePeriodChanges at hpr
    rw [List.mem_map] at hpr
    obtain ⟨row, _, rfl⟩ := hpr
    exact ⟨calculateChange_isSome _ _, calculateChange_isSome _ _,
      calculateChange_isSome _ _, calculateChange_isSome _ _,
      calculateChange_isSome _ _, calculateChange_isSome _ _,
      calculateChange_isSome _ _⟩

/-- Witness for C1: a concrete evaluation of each branch. -/
theorem C1_witness :
    calculateChange 5 4 = some 25 ∧ calculateChange 3 0 = some 100 ∧
    calculateChange 0 0 = some 0 := by
  have h := (C1_calculatePeriodChanges_changes_welldefined.1 5 4
    (by norm_num) (by norm_num)).2.2 (by norm_num)
  have h2 := (C1_calculatePeriodChanges_changes_welldefined.1 3 0
    (by norm_num) (by norm_num)).1 rfl (by norm_num)
  have h3 := (C1_calculatePeriodChanges_changes_welldefined.1 0 0
    (by norm_num) (by norm_num)).2.1 rfl rfl
  refine ⟨?_, h2, h3⟩
  rw [h]
  norm_num

/-- An absent key turns `setField` into an append. -/
lemma setField_of_absent (row : Row) (k : List Char) (v : JsVal)
    (h : lookupField row k = none) : setField row k v = row ++ [(k, v)] := by
  unfold setField
  rw [if_neg]
  intro hany
  rw [List.any_eq_true] at hany
  obtain ⟨p, hp, hpk⟩ := hany
  unfold lookupField at h
  rw [Option.map_eq_none'] at h
  rw [List.find?_eq_none] at h
  exact absurd hpk (h p hp)

/-- Looking a key up in an appended row first searches the front part. -/
lemma lookupField_append (r1 r2 : Row) (k : List Char) :
    lookupField (r1 ++ r2) k = (lookupField r1 k).or (lookupField r2 k) := by
  unfold lookupField
  rw [List.find?_append]
  cases h : List.find? (fun p => decide (p.1 = k)) r1 <;> simp [h, Option.or]

/-- The two keys `enrichMetrics` adds are distinct. -/
lemma returningUsersK_ne_avgK : returningUsersK ≠ avgEngagementPerSessionK := by
  decide

/-- C9 (amended): on rows that do not already carry a `returningUsers` or an
`avgEngagementPerSession` field, `enrichMetrics` appends exactly those two
fields — `returningUsers = (totalUsers || 0) - (newUsers || 0)` and
`avgEngagementPerSession = (userEngagementDuration || 0) / sessions` when
`sessions > 0`, else `0`, so the division is guarded — and leaves every
existing field of every row unchanged.  (A row that already carries one of
the two keys gets that field overwritten; see the counterexample.) -/
theorem C9_enrichMetrics_frame (data : List Row) :
    enrichMetrics data = data.map enrichRow ∧
    ∀ row ∈ data, lookupField row returningUsersK = none →
      lookupField row avgEngagementPerSessionK = none →
      enrichRow row = row ++
        [(returningUsersK, JsVal.num (numOr0 row totalUsersK - numOr0 row newUsersK)),
         (avgEngagementPerSessionK, JsVal.num
           (if 0 < numOr0 row sessionsK then
              numOr0 row userEngagementDurationK / numOr0 row sessionsK
            else 0))] ∧
      ∀ k v, lookupField row k = some v → lookupField (enrichRow row) k = some v := by
  refine ⟨rfl, ?_⟩
  intro row _ hr ha
  have step1 : setField row returningUsersK
      (JsVal.num (numOr0 row totalUsersK - numOr0 row newUsersK)) =
      row ++ [(returningUsersK, JsVal.num (numOr0 row totalUsersK - numOr0 row newUsersK))] :=
    setField_of_absent _ _ _ hr
  have habsent2 : lookupField (row ++
      [(returningUsersK, JsVal.num (numOr0 row totalUsersK - numOr0 row newUsersK))])
      avgEngagementPerSessionK = none := by
    rw [lookupField_append, ha]
    have hd : decide (returningUsersK = avgEngagementPerSessionK) = false := by decide
    simp [lookupField, List.find?, hd, Option.or]
  have hmain : enrichRow row = row ++
      [(returningUsersK, JsVal.num (numOr0 row totalUsersK - numOr0 row newUsersK)),
       (avgEngagementPerSessionK, JsVal.num
         (if 0 < numOr0 row sessionsK then
            numOr0 row userEngagementDurationK / numOr0 row sessionsK
          else 0))] := by
    simp only [enrichRow]
    rw [step1, setField_of_absent _ _ _ habsent2, List.append_assoc]
    rfl
  refine ⟨hmain, ?_⟩
  intro k v hk
  rw [hmain, lookupField_append, hk]
  rfl

/-- Witness for C9: on the empty row both added fields compute to `0` and are
appended. -/
theorem C9_witness :
    enrichRow [] = [(returningUsersK, JsVal.num 0),
      (avgEngagementPerSessionK, JsVal.num 0)] := by
  have h := ((C9_enrichMetrics_frame [[]]).2 [] (by simp) rfl rfl).1
  rw [h]
  norm_num [numOr0, lookupField]

/-- Counterexample for C9 as stated: a row that already has a
`returningUsers` field does not keep it unchanged — `enrichMetrics`
overwrites it with the computed value. -/
theorem C9_counterexample :
    lookupField ((enrichMetrics [[(returningUsersK, JsVal.num 7)]]).getD 0 [])
        returningUsersK ≠
      lookupField [(returningUsersK, JsVal.num 7)] returningUsersK := by
  have hT : returningUsersK ≠ totalUsersK := by decide
  have hN : returningUsersK ≠ newUsersK := by decide
  have hS : returningUsersK ≠ sessionsK := by decide
  have hA : avgEngagementPerSessionK ≠ returningUsersK := returningUsersK_ne_avgK.symm
  simp [enrichMetrics, enrichRow, setField, numOr0, lookupField, List.find?,
    hT, hN, hS, hA]

/-- Replacing the `k`-entries of a row finds the replacement exactly when the
row had a `k`-entry. -/
lemma find?_map_replace (row : Row) (k : List Char) (v : JsVal) :
    (row.map (fun p => if p.1 = k then (k, v) else p)).find? (fun p => decide (p.1 = k)) =
      if row.any (fun p => decide (p.1 = k)) then some (k, v) else none := by
  induction row with
  | nil => rfl
  | cons p rest ih =>
    by_cases hp : p.1 = k
    · simp [List.find?_cons, List.any_cons, hp]
    · have hd : decide (p.1 = k) = false := by simp [hp]
      rw [List.map_cons, List.find?_cons, List.any_cons, if_neg hp, hd, ih,
        Bool.false_or]

/-- After `setField row k v`, looking up `k` yields `v`. -/
lemma lookupField_setField_self (row : Row) (k : List Char) (v : JsVal) :
    lookupField (setField row k v) k = some v := by
  unfold setField lookupField
  by_cases h : row.any (fun p => decide (p.1 = k))
  · rw [if_pos h, find?_map_replace, if_pos h]
    rfl
  · rw [if_neg h, List.find?_append]
    have hn : List.find? (fun p => decide (p.1 = k)) row = none := by
      rw [List.find?_eq_none]
      intro x hx hpx
      exact h (List.any_eq_true.mpr ⟨x, hx, hpx⟩)
    rw [hn]
    simp [List.find?, Option.or]

/-- Replacing the `k`-entries of a row does not disturb a search for a
different key. -/
lemma find?_map_replace_other (row : Row) (k k' : List Char) (v : JsVal) (hne : k' ≠ k) :
    (row.map (fun p => if p.1 = k then (k, v) else p)).find? (fun p => decide (p.1 = k')) =
      row.find? (fun p => decide (p.1 = k')) := by
  induction row with
  | nil => rfl
  | cons p rest ih =>
    by_cases hp : p.1 = k
    · simp [List.find?_cons, hp, Ne.symm hne, ih]
    · simp [List.find?_cons, hp, ih]

/-- After `setField row k v`, looking up a different key is unchanged. -/
lemma lookupField_setField_other (row : Row) (k k' : List Char) (v : JsVal)
    (hne : k' ≠ k) : lookupField (setField row k v) k' = lookupField row k' := by
  unfold setField lookupField
  by_cases h : row.any (fun p => decide (p.1 = k))
  · rw [if_pos h, find?_map_replace_other row k k' v hne]
  · rw [if_neg h, List.find?_append]
    have h2 : List.find? (fun p => decide (p.1 = k')) [(k, v)] = none := by
      simp [List.find?, Ne.symm hne]
    rw [h2]
    cases List.find? (fun p => decide (p.1 = k')) row <;> rfl

/-- The dimension loop succeeds whenever there are at least as many values
as headers. -/
lemma dimFields_ok :
    ∀ (hs : List GA4Header) (vals : List (List Char)) (acc : Row),
      hs.length ≤ vals.length → ∃ r, dimFields hs vals acc = Except.ok r := by
  intro hs
  induction hs with
  | nil => exact fun vals acc _ => ⟨acc, rfl⟩
  | cons h hs ih =>
    intro vals acc hlen
    cases vals with
    | nil => simp at hlen
    | cons v vs => exact ih vs _ (by simpa using hlen)

/-- The metric loop succeeds whenever there are at least as many values as
headers, puts a number in every field named by a header, and leaves fields
named by no header unchanged. -/
lemma metricFields_ok :
    ∀ (hs : List GA4Header) (vals : List (List Char)) (acc : Row),
      hs.length ≤ vals.length →
      ∃ r, metricFields hs vals acc = Except.ok r ∧
        (∀ k, (∃ h ∈ hs, h.name = k) → ∃ q, lookupField r k = some (JsVal.num q)) ∧
        (∀ k, (∀ h ∈ hs, h.name ≠ k) → lookupField r k = lookupField acc k) := by
  intro hs
  induction hs with
  | nil =>
    intro vals acc _
    refine ⟨acc, rfl, ?_, fun k _ => rfl⟩
    rintro k ⟨h, hmem, -⟩
    exact absurd hmem (List.not_mem_nil h)
  | cons h hs ih =>
    intro vals acc hlen
    cases vals with
    | nil => simp at hlen
    | cons v vs =>
      obtain ⟨r, hr, hin, hout⟩ :=
        ih vs (setField acc h.name (JsVal.num (metricValueOf h.name v))) (by simpa using hlen)
      refine ⟨r, hr, ?_, ?_⟩
      · rintro k ⟨h', hmem, hname⟩
        by_cases hx : ∃ h2 ∈ hs, h2.name = k
        · exact hin k hx
        · push_neg at hx
          have hk : h.name = k := by
            rcases List.mem_cons.mp hmem with rfl | hmem2
            · exact hname
            · exact absurd hname (hx h' hmem2)
          rw [hout k hx, ← hk, lookupField_setField_self]
          exact ⟨_, rfl⟩
      · intro k hk
        have hkh : h.name ≠ k := hk h (List.mem_cons_self h hs)
        rw [hout k (fun h2 hm => hk h2 (List.mem_cons_of_mem h hm)),
          lookupField_setField_other _ _ _ _ (Ne.symm hkh)]

/-- `mapM` over `Except` succeeds elementwise. -/
lemma mapM_ok_of_forall {α β : Type} (f : α → Except (List Char) β)
    (P : α → β → Prop) :
    ∀ l : List α, (∀ a ∈ l, ∃ b, f a = Except.ok b ∧ P a b) →
      ∃ out, l.mapM f = Except.ok out ∧
        List.Forall₂ (fun a b => f a = Except.ok b ∧ P a b) l out := by
  intro l
  induction l with
  | nil => exact fun _ => ⟨[], rfl, List.Forall₂.nil⟩
  | cons a rest ih =>
    intro hall
    obtain ⟨b, hb, hPb⟩ := hall a (List.mem_cons_self a rest)
    obtain ⟨out, hout, hf⟩ := ih (fun x hx => hall x (List.mem_cons_of_mem a hx))
    refine ⟨b :: out, ?_, List.Forall₂.cons ⟨hb, hPb⟩ hf⟩
    rw [List.mapM_cons, hb, hout]
    rfl

/-- A single row parses whenever the value arrays are at least as long as
the corresponding header arrays, and all its metric fields come out
numeric. -/
lemma parseGA4Row_ok (resp : GA4Response) (row : GA4Row)
    (hdim : ∀ vals hs, row.dimensionValues = some vals →
      resp.dimensionHeaders = some hs → hs.length ≤ vals.length)
    (hmet : ∀ vals hs, row.metricValues = some vals →
      resp.metricHeaders = some hs → hs.length ≤ vals.length) :
    ∃ r, parseGA4Row resp row = Except.ok r ∧
      ∀ vals hs, row.metricValues = some vals → resp.metricHeaders = some hs →
        ∀ h ∈ hs, ∃ q, lookupField r h.name = some (JsVal.num q) := by
  unfold parseGA4Row
  have hdimres : ∃ r1, (match row.dimensionValues, resp.dimensionHeaders with
      | some vals, some hs => dimFields hs vals []
      | _, _ => Except.ok []) = Except.ok r1 := by
    rcases h1 : row.dimensionValues with _ | dvals
    · rcases h2 : resp.dimensionHeaders with _ | dhs <;> exact ⟨[], by simp⟩
    · rcases h2 : resp.dimensionHeaders with _ | dhs
      · exact ⟨[], by simp⟩
      · obtain ⟨r1, hr1⟩ := dimFields_ok dhs dvals [] (hdim dvals dhs h1 h2)
        exact ⟨r1, by simp [hr1]⟩
  obtain ⟨r1, hr1⟩ := hdimres
  rw [hr1]
  rcases h3 : row.metricValues with _ | mvals
  · refine ⟨r1, by simp, ?_⟩
    intro vals hs hv
    simp at hv
  · rcases h4 : resp.metricHeaders with _ | mhs
    · refine ⟨r1, by simp, ?_⟩
      intro vals hs _ hh
      simp at hh
    · obtain ⟨r, hr, hin, -⟩ := metricFields_ok mhs mvals r1 (hmet mvals mhs h3 h4)
      refine ⟨r, by simp [hr], ?_⟩
      intro vals hs hv hh h hmem
      cases Option.some.inj hv
      cases Option.some.inj hh
      exact hin h.name ⟨h, hmem, rfl⟩

/-- C10: `parseGA4Response` returns `[]` on a missing or empty `rows` array;
on aligned (expected-shape) responses it succeeds with one output row per
input row, every metric field of every output row is a number, a header name
containing `Rate`, `Duration` or `Per` routes the value through the float
parser and any other name through the integer parser, and an unparseable
value becomes `0` rather than `NaN`. -/
theorem C10_parseGA4Response_total :
    (∀ resp : GA4Response, resp.rows = none → parseGA4Response resp = Except.ok []) ∧
    (∀ resp : GA4Response, resp.rows = some [] → parseGA4Response resp = Except.ok []) ∧
    (∀ (resp : GA4Response) (rows : List GA4Row), resp.rows = some rows →
      (∀ row ∈ rows,
        (∀ vals hs, row.dimensionValues = some vals →
          resp.dimensionHeaders = some hs → hs.length ≤ vals.length) ∧
        (∀ vals hs, row.metricValues = some vals →
          resp.metricHeaders = some hs → hs.length ≤ vals.length)) →
      ∃ out : List Row, parseGA4Response resp = Except.ok out ∧
        out.length = rows.length ∧
        List.Forall₂ (fun row r => parseGA4Row resp row = Except.ok r ∧
          ∀ vals hs, row.metricValues = some vals → resp.metricHeaders = some hs →
            ∀ h ∈ hs, ∃ q, lookupField r h.name = some (JsVal.num q)) rows out) ∧
    (∀ name raw, parseFloatJS raw = none → parseIntJS raw = none →
      metricValueOf name raw = 0) ∧
    (∀ name raw,
      ((includesStr "Rate".data name || includesStr "Duration".data name ||
          includesStr "Per".data name) = true →
        metricValueOf name raw = (parseFloatJS raw).getD 0) ∧
      ((includesStr "Rate".data name || includesStr "Duration".data name ||
          includesStr "Per".data name) = false →
        metricValueOf name raw = ((parseIntJS raw).map (fun z => (z : ℚ))).getD 0)) := by
  refine ⟨?_, ?_, ?_, ?_, ?_⟩
  · intro resp h
    unfold parseGA4Response
    rw [h]
  · intro resp h
    unfold parseGA4Response
    rw [h]
  · intro resp rows hrows hall
    rcases rows with _ | ⟨row0, rest⟩
    · exact ⟨[], by unfold parseGA4Response; rw [hrows], rfl, List.Forall₂.nil⟩
    · obtain ⟨out, hout, hf⟩ := mapM_ok_of_forall (parseGA4Row resp)
        (fun row r => ∀ vals hs, row.metricValues = some vals →
          resp.metricHeaders = some hs →
          ∀ h ∈ hs, ∃ q, lookupField r h.name = some (JsVal.num q))
        (row0 :: rest)
        (fun row hm => by
          obtain ⟨r, hr, hprop⟩ := parseGA4Row_ok resp row (hall row hm).1 (hall row hm).2
          exact ⟨r, hr, hprop⟩)
      refine ⟨out, ?_, (List.Forall₂.length_eq hf).symm, hf⟩
      unfold parseGA4Response
      rw [hrows]
      exact hout
  · intro name raw hf hi
    unfold metricValueOf
    split
    · rw [hf]
      rfl
    · rw [hi]
      rfl
  · intro name raw
    constructor
    · intro h
      unfold metricValueOf
      rw [if_pos h]
    · intro h
      unfold metricValueOf
      rw [if_neg]
      rw [h]
      exact Bool.false_ne_true

/-- Witness for C10: a rows-free response parses to the empty list, and an
unparseable metric value string is mapped to `0`. -/
theorem C10_witness :
    parseGA4Response ⟨none, none, none⟩ = Except.ok [] ∧
    metricValueOf ("bounceRate".data) ("abc".data) = 0 :=
  ⟨C10_parseGA4Response_total.1 ⟨none, none, none⟩ rfl,
   C10_parseGA4Response_total.2.2.2.1 ("bounceRate".data) ("abc".data)
     (by decide) (by decide)⟩

/-- Splitting always yields at least one (possibly empty) paragraph. -/
lemma splitNN_ne_nil : ∀ l : List Char, splitNN l ≠ [] := by
  intro l
  induction l using splitNN.induct with
  | case1 => simp [splitNN]
  | case2 rest ih => simp [splitNN]
  | case3 c rest hnn hsp ih => exact absurd hsp ih
  | case4 c rest hnn p ps hsp ih =>
    rw [splitNN]
    · rw [hsp]
      simp
    · exact hnn

/-- `joinNN` of a cons, via a flattened separator-prefixed tail. -/
lemma joinNN_cons (a : List Char) (ps : List (List Char)) :
    joinNN (a :: ps) = a ++ (ps.map (fun p => '\n' :: '\n' :: p)).flatten := by
  induction ps generalizing a with
  | nil => simp [joinNN]
  | cons q t ih => simp [joinNN, ih q, List.append_assoc]

/-- Appending one more chunk appends one more separator-prefixed block. -/
lemma joinNN_append_singleton (xs : List (List Char)) (a : List Char)
    (h : xs ≠ []) : joinNN (xs ++ [a]) = joinNN xs ++ '\n' :: '\n' :: a := by
  rcases xs with _ | ⟨x, t⟩
  · exact absurd rfl h
  · rw [List.cons_append, joinNN_cons, joinNN_cons, List.map_append,
      List.flatten_append]
    simp [List.append_assoc]

/-- Extending the final chunk extends the joined string. -/
lemma joinNN_last_extend (xs : List (List Char)) (a b : List Char) :
    joinNN (xs ++ [a ++ b]) = joinNN (xs ++ [a]) ++ b := by
  rcases xs with _ | ⟨x, t⟩
  · simp [joinNN]
  · rw [List.cons_append, List.cons_append, joinNN_cons, joinNN_cons,
      List.map_append, List.map_append, List.flatten_append, List.flatten_append]
    simp [List.append_assoc]

/-- Joining the split paragraphs with `'\n\n'` restores the original text:
JS `split`/`join` with a fixed string separator are inverse. -/
lemma joinNN_splitNN : ∀ l : List Char, joinNN (splitNN l) = l := by
  intro l
  induction l using splitNN.induct with
  | case1 => simp [splitNN, joinNN]
  | case2 rest ih =>
    rw [splitNN]
    cases h : splitNN rest with
    | nil => exact absurd h (splitNN_ne_nil rest)
    | cons q qs =>
      rw [h] at ih
      simp [joinNN, ih]
  | case3 c rest hnn hsp ih => exact absurd hsp (splitNN_ne_nil rest)
  | case4 c rest hnn p ps hsp ih =>
    rw [splitNN]
    · rw [hsp]
      rw [hsp] at ih
      cases ps with
      | nil =>
        simp only [joinNN] at ih ⊢
        rw [ih]
      | cons r rs =>
        simp only [joinNN] at ih ⊢
        rw [← ih]
        simp
    · exact hnn

/-- Trimming never lengthens a string. -/
lemma trimChars_length_le (l : List Char) : (trimChars l).length ≤ l.length := by
  unfold trimChars
  have h1 : (l.dropWhile isJsSpace).length ≤ l.length :=
    (List.dropWhile_suffix isJsSpace).length_le
  have h2 := ( List.rdropWhile_prefix isJsSpace (l.dropWhile isJsSpace)).length_le
  omega

/-- A string whose head is not whitespace survives `dropWhile`. -/
lemma dropWhile_eq_self_of_head {q : Char → Bool} {l : List Char}
    (h : ∀ c, l.head? = some c → q c = false) : l.dropWhile q = l := by
  cases l with
  | nil => rfl
  | cons a r =>
    rw [List.dropWhile_cons, h a rfl]
    simp

/-- Conversely, an untouched `dropWhile` means the head is not whitespace. -/
lemma head_false_of_dropWhile_eq_self {q : Char → Bool} {l : List Char}
    (h : l.dropWhile q = l) : ∀ c, l.head? = some c → q c = false := by
  intro c hc
  cases l with
  | nil => cases hc
  | cons a r =>
    cases hc
    by_contra hq
    rw [Bool.not_eq_false] at hq
    rw [List.dropWhile_cons, if_pos hq] at h
    have hle : (r.dropWhile q).length ≤ r.length :=
      (List.dropWhile_suffix q).length_le
    rw [h] at hle
    simp at hle

/-- A string whose last character is not whitespace survives `rdropWhile`. -/
lemma rdropWhile_eq_self_of_last {q : Char → Bool} {l : List Char}
    (h : ∀ c, l.getLast? = some c → q c = false) : List.rdropWhile q l = l := by
  have h2 : l.reverse.dropWhile q = l.reverse :=
    dropWhile_eq_self_of_head (fun c hc => h c (by rwa [List.head?_reverse] at hc))
  unfold List.rdropWhile
  rw [h2, List.reverse_reverse]

/-- Conversely, an untouched `rdropWhile` means the last character is not
whitespace. -/
lemma last_false_of_rdropWhile_eq_self {q : Char → Bool} {l : List Char}
    (h : List.rdropWhile q l = l) : ∀ c, l.getLast? = some c → q c = false := by
  have h' := h
  unfold List.rdropWhile at h'
  have h2 := congrArg List.reverse h'
  rw [List.reverse_reverse] at h2
  intro c hc
  exact head_false_of_dropWhile_eq_self h2 c (by rwa [List.head?_reverse])

/-- A string is its own trim exactly when both one-sided strips fix it. -/
lemma trimChars_eq_self_iff (l : List Char) :
    trimChars l = l ↔
      l.dropWhile isJsSpace = l ∧ List.rdropWhile isJsSpace l = l := by
  constructor
  · intro h
    have hsuf : l.dropWhile isJsSpace <:+ l := List.dropWhile_suffix isJsSpace
    have h1 := hsuf.length_le
    have h2 := ( List.rdropWhile_prefix isJsSpace (l.dropWhile isJsSpace)).length_le
    have hlen' := congrArg List.length h
    unfold trimChars at hlen'
    have hd : l.dropWhile isJsSpace = l := hsuf.eq_of_length (by omega)
    refine ⟨hd, ?_⟩
    unfold trimChars at h
    rwa [hd] at h
  · rintro ⟨h1, h2⟩
    unfold trimChars
    rw [h1, h2]

/-- Gluing two trim-fixed nonempty strings with the `'\n\n'` joint keeps the
whole trim-fixed: its first and last characters come from the pieces. -/
lemma trimChars_append_sep {cur p : List Char}
    (hcur : cur ≠ []) (hp : p ≠ [])
    (hc : trimChars cur = cur) (hpp : trimChars p = p) :
    trimChars (cur ++ '\n' :: '\n' :: p) = cur ++ '\n' :: '\n' :: p := by
  obtain ⟨hc1, hc2⟩ := (trimChars_eq_self_iff cur).1 hc
  obtain ⟨hp1, hp2⟩ := (trimChars_eq_self_iff p).1 hpp
  apply (trimChars_eq_self_iff _).2
  constructor
  · apply dropWhile_eq_self_of_head
    intro c hcc
    rw [List.head?_append_of_ne_nil _ hcur] at hcc
    exact head_false_of_dropWhile_eq_self hc1 c hcc
  · apply rdropWhile_eq_self_of_last
    intro c hcc
    rw [List.getLast?_append_of_ne_nil cur
      (show ('\n' :: '\n' :: p) ≠ [] by simp)] at hcc
    rw [show ('\n' :: '\n' :: p) = ['\n', '\n'] ++ p from rfl,
      List.getLast?_append_of_ne_nil _ hp] at hcc
    exact last_false_of_rdropWhile_eq_self hp2 c hcc

/-- The bound kept by the `chunkText` fold: every accumulated chunk, and the
running chunk, stay within `max (maxLength + 2) B` as long as every
remaining paragraph is at most `B` long. -/
lemma chunkStep_fold_length (maxLength B : ℕ) :
    ∀ (ps chunks : List (List Char)) (cur : List Char),
      (∀ p ∈ ps, p.length ≤ B) →
      (∀ c ∈ chunks, c.length ≤ max (maxLength + 2) B) →
      cur.length ≤ max (maxLength + 2) B →
      (∀ c ∈ (ps.foldl (chunkStep maxLength) (chunks, cur)).1,
        c.length ≤ max (maxLength + 2) B) ∧
      ((ps.foldl (chunkStep maxLength) (chunks, cur)).2).length ≤
        max (maxLength + 2) B := by
  intro ps
  induction ps with
  | nil => exact fun chunks cur _ hch hcur => ⟨hch, hcur⟩
  | cons p ps ih =>
    intro chunks cur hps hch hcur
    have hpB : p.length ≤ B := hps p (List.mem_cons_self _ _)
    have hps' : ∀ x ∈ ps, x.length ≤ B := fun x hx => hps x (List.mem_cons_of_mem _ hx)
    rw [List.foldl_cons]
    by_cases hcond : maxLength < (cur ++ p).length ∧ cur ≠ []
    · rw [show chunkStep maxLength (chunks, cur) p = (chunks ++ [trimChars cur], p) from by
        simp only [chunkStep]
        rw [if_pos hcond]]
      apply ih _ _ hps'
      · intro c hc
        rcases List.mem_append.mp hc with hc | hc
        · exact hch c hc
        · rw [List.mem_singleton] at hc
          subst hc
          exact le_trans (trimChars_length_le cur) hcur
      · exact le_trans hpB (le_max_right _ _)
    · by_cases hc0 : cur = []
      · rw [show chunkStep maxLength (chunks, cur) p = (chunks, p) from by
          simp only [chunkStep]
          rw [if_neg hcond, if_pos hc0]]
        exact ih _ _ hps' hch (le_trans hpB (le_max_right _ _))
      · rw [show chunkStep maxLength (chunks, cur) p = (chunks, cur ++ '\n' :: '\n' :: p) from by
          simp only [chunkStep]
          rw [if_neg hcond, if_neg hc0]]
        apply ih _ _ hps' hch
        have hle : (cur ++ p).length ≤ maxLength := by
          by_contra hgt
          exact hcond ⟨Nat.lt_of_not_le (fun hx => hgt hx), hc0⟩
        simp only [List.length_append] at hle ⊢
        simp only [List.length_cons]
        have := le_max_left (maxLength + 2) B
        omega

/-- C2 (amended): every chunk produced by `chunkText` has length at most
`max (maxLength + 2) B`, where `B` bounds the paragraph lengths of the text:
the bound `maxLength` alone fails both because the length check precedes the
two-character `'\n\n'` joint (hence `+ 2`) and because a single paragraph
longer than `maxLength` is emitted whole (hence `B`). -/
theorem C2_chunkText_length_bound (text : List Char) (maxLength B : ℕ)
    (hB : ∀ p ∈ splitNN text, p.length ≤ B) :
    ∀ c ∈ chunkText text maxLength, c.length ≤ max (maxLength + 2) B := by
  intro c hc
  simp only [chunkText] at hc
  obtain ⟨h1, h2⟩ :=
    chunkStep_fold_length maxLength B (splitNN text) [] [] hB (by simp) (by simp)
  by_cases hcur : ((splitNN text).foldl (chunkStep maxLength) ([], [])).2 = []
  · rw [if_neg (by simp [hcur])] at hc
    exact h1 c hc
  · rw [if_pos hcur] at hc
    rcases List.mem_append.mp hc with hc | hc
    · exact h1 c hc
    · rw [List.mem_singleton] at hc
      subst hc
      exact le_trans (trimChars_length_le _) h2

/-- Witness for C2: on `"ab\n\ncd"` with `maxLength = 10` the single
returned chunk obeys the amended bound. -/
theorem C2_witness :
    ("ab\n\ncd".data : List Char) ∈ chunkText ("ab\n\ncd".data) 10 ∧
    ("ab\n\ncd".data : List Char).length ≤ max (10 + 2) 2 :=
  ⟨by decide, C2_chunkText_length_bound ("ab\n\ncd".data) 10 2 (by decide)
      ("ab\n\ncd".data) (by decide)⟩

/-- Counterexample for C2 as stated: a single four-character paragraph with
`maxLength = 2` is returned as one chunk of length `4 > 2`. -/
theorem C2_counterexample :
    chunkText ("aaaa".data) 2 = ["aaaa".data] ∧
    ¬ (("aaaa".data : List Char).length ≤ 2) := by
  decide

/-- The reconstruction kept by the `chunkText` fold: starting from a
nonempty, trim-fixed running chunk, the fold keeps the running chunk
nonempty and trim-fixed, and joining all chunks (accumulated ones plus the
running one) with `'\n\n'` appends exactly one separator-prefixed block per
processed paragraph — provided every paragraph is nonempty and trim-fixed. -/
lemma chunkStep_fold_join (maxLength : ℕ) :
    ∀ (ps chunks : List (List Char)) (cur : List Char),
      (∀ p ∈ ps, p ≠ [] ∧ trimChars p = p) →
      cur ≠ [] → trimChars cur = cur →
      ((ps.foldl (chunkStep maxLength) (chunks, cur)).2 ≠ [] ∧
       trimChars (ps.foldl (chunkStep maxLength) (chunks, cur)).2 =
         (ps.foldl (chunkStep maxLength) (chunks, cur)).2 ∧
       joinNN ((ps.foldl (chunkStep maxLength) (chunks, cur)).1 ++
           [(ps.foldl (chunkStep maxLength) (chunks, cur)).2]) =
         joinNN (chunks ++ [cur]) ++
           (ps.map (fun p => '\n' :: '\n' :: p)).flatten) := by
  intro ps
  induction ps with
  | nil => exact fun chunks cur _ h1 h2 => ⟨h1, h2, by simp⟩
  | cons p ps ih =>
    intro chunks cur hps hcur htrim
    obtain ⟨hpne, hptrim⟩ := hps p (List.mem_cons_self _ _)
    have hps' : ∀ x ∈ ps, x ≠ [] ∧ trimChars x = x :=
      fun x hx => hps x (List.mem_cons_of_mem _ hx)
    rw [List.foldl_cons]
    by_cases hcond : maxLength < (cur ++ p).length ∧ cur ≠ []
    · rw [show chunkStep maxLength (chunks, cur) p = (chunks ++ [trimChars cur], p) from by
        simp only [chunkStep]
        rw [if_pos hcond]]
      obtain ⟨h1, h2, h3⟩ := ih (chunks ++ [trimChars cur]) p hps' hpne hptrim
      refine ⟨h1, h2, ?_⟩
      rw [h3, htrim, joinNN_append_singleton (chunks ++ [cur]) p (by simp)]
      simp [List.append_assoc]
    · rw [show chunkStep maxLength (chunks, cur) p = (chunks, cur ++ '\n' :: '\n' :: p) from by
        simp only [chunkStep]
        rw [if_neg hcond, if_neg hcur]]
      have hne2 : cur ++ '\n' :: '\n' :: p ≠ [] := by simp
      have htrim2 : trimChars (cur ++ '\n' :: '\n' :: p) = cur ++ '\n' :: '\n' :: p :=
        trimChars_append_sep hcur hpne htrim hptrim
      obtain ⟨h1, h2, h3⟩ := ih chunks (cur ++ '\n' :: '\n' :: p) hps' hne2 htrim2
      refine ⟨h1, h2, ?_⟩
      rw [h3, show cur ++ '\n' :: '\n' :: p = cur ++ (('\n' :: '\n' :: []) ++ p) from by simp,
        joinNN_last_extend]
      simp [List.append_assoc]

/-- C3 (amended): concatenating the chunks returned by `chunkText` with
`'\n\n'` yields the original text, provided every paragraph of the text
(every `'\n\n'`-separated segment) is nonempty and carries no leading or
trailing whitespace — the per-chunk `trim()` and the dropped empty final
chunk make the reconstruction lossy otherwise. -/
theorem C3_chunkText_join (text : List Char) (maxLength : ℕ)
    (hne : ∀ p ∈ splitNN text, p ≠ [])
    (htr : ∀ p ∈ splitNN text, trimChars p = p) :
    joinNN (chunkText text maxLength) = text := by
  obtain ⟨p0, ps, hsplit⟩ : ∃ p0 ps, splitNN text = p0 :: ps := by
    cases h : splitNN text with
    | nil => exact absurd h (splitNN_ne_nil text)
    | cons a l => exact ⟨a, l, rfl⟩
  have hp0 : p0 ≠ [] := hne p0 (by rw [hsplit]; exact List.mem_cons_self _ _)
  have hp0t : trimChars p0 = p0 := htr p0 (by rw [hsplit]; exact List.mem_cons_self _ _)
  have hrest : ∀ p ∈ ps, p ≠ [] ∧ trimChars p = p := fun p hp =>
    ⟨hne p (by rw [hsplit]; exact List.mem_cons_of_mem _ hp),
     htr p (by rw [hsplit]; exact List.mem_cons_of_mem _ hp)⟩
  simp only [chunkText]
  rw [hsplit, List.foldl_cons,
    show chunkStep maxLength ([], []) p0 = ([], p0) from by simp [chunkStep]]
  obtain ⟨h1, h2, h3⟩ := chunkStep_fold_join maxLength ps [] p0 hrest hp0 hp0t
  rw [if_pos h1, h2, h3]
  have hjs := joinNN_splitNN text
  rw [hsplit, joinNN_cons] at hjs
  simpa using hjs

/-- Witness for C3: `"ab\n\ncd"` is reassembled exactly from its chunks. -/
theorem C3_witness :
    joinNN (chunkText ("ab\n\ncd".data) 3) = "ab\n\ncd".data :=
  C3_chunkText_join ("ab\n\ncd".data) 3 (by decide) (by decide)

/-- Counterexample for C3 as stated: the single paragraph `" a"` is trimmed
to `"a"`, so the joined chunks differ from the original text. -/
theorem C3_counterexample :
    joinNN (chunkText (" a".data) 5) ≠ " a".data := by
  decide

/-- The `k`-th loop counter value reached from `i` is `i + 9500 * k`. -/
lemma windowStartsGo_getD (len : ℕ) :
    ∀ (fuel i k : ℕ), k < (windowStartsGo len i fuel).length →
      (windowStartsGo len i fuel).getD k 0 = i + 9500 * k := by
  intro fuel
  induction fuel with
  | zero => intro i k hk; simp [windowStartsGo] at hk
  | succ fuel ih =>
    intro i k hk
    by_cases hi : i < len
    · rw [windowStartsGo, if_pos hi] at hk ⊢
      cases k with
      | zero => simp
      | succ k =>
        rw [List.getD_cons_succ]
        rw [List.length_cons, Nat.succ_lt_succ_iff] at hk
        rw [ih (i + 9500) k hk]
        ring
    · rw [windowStartsGo, if_neg hi] at hk
      simp at hk

/-- Every produced start position lies inside the text. -/
lemma windowStartsGo_mem_lt (len : ℕ) :
    ∀ (fuel i : ℕ), ∀ s ∈ windowStartsGo len i fuel, s < len := by
  intro fuel
  induction fuel with
  | zero => intro i s hs; simp [windowStartsGo] at hs
  | succ fuel ih =>
    intro i s hs
    by_cases hi : i < len
    · simp only [windowStartsGo, if_pos hi] at hs
      rcases List.mem_cons.mp hs with rfl | hs
      · exact hi
      · exact ih _ s hs
    · simp [windowStartsGo, if_neg hi] at hs

/-- Every position `p` with `i ≤ p < len` is covered by a window reachable
from `i`, given enough fuel. -/
lemma windowStartsGo_cover (len : ℕ) :
    ∀ (fuel i p : ℕ), i ≤ p → p < len → p - i < 9500 * fuel →
      ∃ s ∈ windowStartsGo len i fuel, s ≤ p ∧ p < s + windowLen len s := by
  intro fuel
  induction fuel with
  | zero => intro i p _ _ hfuel; omega
  | succ fuel ih =>
    intro i p hip hp hfuel
    have hi : i < len := lt_of_le_of_lt hip hp
    rw [windowStartsGo, if_pos hi]
    by_cases hnear : p < i + 9500
    · refine ⟨i, List.mem_cons_self _ _, hip, ?_⟩
      unfold windowLen
      omega
    · obtain ⟨s, hs, h1, h2⟩ := ih (i + 9500) p (by omega) hp (by omega)
      exact ⟨s, List.mem_cons_of_mem _ hs, h1, h2⟩

/-- C4: for every text longer than 15000 characters, the chunking loop of
`analyzeInChunks` produces windows starting at `0, 9500, 19000, …`
(the `k`-th start is `9500 * k`), each of length
`min(10000, characters remaining)`; every character position is covered by
at least one window, and a full-size (length `10000`) window overlaps the
next window in exactly `500` characters. -/
theorem C4_analyzeInChunks_windows (len : ℕ) (hlen : 15000 < len) :
    windowStarts len ≠ [] ∧
    (∀ k : ℕ, k < (windowStarts len).length →
      (windowStarts len).getD k 0 = 9500 * k) ∧
    (∀ s ∈ windowStarts len, windowLen len s = min 10000 (len - s)) ∧
    (∀ p < len, ∃ s ∈ windowStarts len, s ≤ p ∧ p < s + windowLen len s) ∧
    (∀ k : ℕ, k + 1 < (windowStarts len).length →
      windowLen len ((windowStarts len).getD k 0) = 10000 →
      (windowStarts len).getD k 0 + 10000 - (windowStarts len).getD (k + 1) 0 = 500) := by
  have h0 : 0 < len := by omega
  refine ⟨?_, ?_, ?_, ?_, ?_⟩
  · unfold windowStarts windowStartsGo
    rw [if_pos h0]
    simp
  · intro k hk
    have := windowStartsGo_getD len (len + 1) 0 k hk
    simpa using this
  · intro s hs
    have := windowStartsGo_mem_lt len (len + 1) 0 s hs
    unfold windowLen
    omega
  · intro p hp
    exact windowStartsGo_cover len (len + 1) 0 p (Nat.zero_le p) hp (by omega)
  · intro k hk hfull
    have ha := windowStartsGo_getD len (len + 1) 0 k (Nat.lt_of_succ_lt hk)
    have hb := windowStartsGo_getD len (len + 1) 0 (k + 1) hk
    unfold windowStarts at ha hb ⊢
    rw [ha, hb]
    omega

/-- Witness for C4: at `len = 20000` the loop produces starts
`[0, 9500, 19000]`, position `9499` is covered by the first window, and the
first (full-size) window overlaps the second in `500` characters. -/
theorem C4_witness :
    windowStarts 20000 ≠ [] ∧
    windowLen 20000 9500 = min 10000 (20000 - 9500) ∧
    windowStarts 20000 = [0, 9500, 19000] :=
  ⟨(C4_analyzeInChunks_windows 20000 (by decide)).1,
   (C4_analyzeInChunks_windows 20000 (by decide)).2.2.1 9500 (by decide),
   by decide⟩

/-- Folding chunk by chunk equals folding the concatenated issue stream. -/
lemma dedupIssues_foldl_flatten :
    ∀ (crs : List (List Issue)) (st : List (List Char) × List Issue),
      crs.foldl (fun st chunk => chunk.foldl dedupIssuesStep st) st =
        crs.flatten.foldl dedupIssuesStep st := by
  intro crs
  induction crs with
  | nil => intro st; rfl
  | cons c crs ih =>
    intro st
    rw [List.foldl_cons, ih, List.flatten_cons, List.foldl_append]

/-- The master invariant of the dedup fold of `analyzeInChunks`: provided
`seen` holds exactly the trimmed texts of `acc` and `acc` is duplicate-free,
the fold keeps both properties, only appends (a subsequence of the incoming
issues), covers every incoming trimmed text, and keeps the first occurrence
of each trimmed text. -/
lemma dedupIssuesStep_fold_spec :
    ∀ (issues : List Issue) (seen : List (List Char)) (acc : List Issue),
      (∀ k, k ∈ seen ↔ ∃ i ∈ acc, trimChars i.text = k) →
      List.Pairwise (fun a b => trimChars a.text ≠ trimChars b.text) acc →
      (∀ k, k ∈ (issues.foldl dedupIssuesStep (seen, acc)).1 ↔
        ∃ i ∈ (issues.foldl dedupIssuesStep (seen, acc)).2, trimChars i.text = k) ∧
      List.Pairwise (fun a b => trimChars a.text ≠ trimChars b.text)
        (issues.foldl dedupIssuesStep (seen, acc)).2 ∧
      (∃ app, (issues.foldl dedupIssuesStep (seen, acc)).2 = acc ++ app ∧
        app.Sublist issues) ∧
      (∀ i ∈ issues, ∃ j ∈ (issues.foldl dedupIssuesStep (seen, acc)).2,
        trimChars j.text = trimChars i.text) ∧
      (∀ k, ((issues.foldl dedupIssuesStep (seen, acc)).2).find?
          (fun j => decide (trimChars j.text = k)) =
        (acc.find? (fun j => decide (trimChars j.text = k))).or
          (issues.find? (fun j => decide (trimChars j.text = k)))) := by
  intro issues
  induction issues with
  | nil =>
    intro seen acc hinv hpw
    refine ⟨hinv, hpw, ⟨[], by simp, List.nil_sublist _⟩, ?_, ?_⟩
    · intro i hi
      exact absurd hi (List.not_mem_nil i)
    · intro k
      cases h : acc.find? (fun j => decide (trimChars j.text = k)) <;>
        simp [h, Option.or, List.find?]
  | cons i rest ih =>
    intro seen acc hinv hpw
    rw [List.foldl_cons]
    by_cases hmem : trimChars i.text ∈ seen
    · rw [show dedupIssuesStep (seen, acc) i = (seen, acc) from by
        simp only [dedupIssuesStep]
        rw [if_pos hmem]]
      obtain ⟨g1, g2, ⟨app, happ, hsub⟩, g4, g5⟩ := ih seen acc hinv hpw
      refine ⟨g1, g2, ⟨app, happ, hsub.cons i⟩, ?_, ?_⟩
      · intro j hj
        rcases List.mem_cons.mp hj with rfl | hj
        · obtain ⟨a, ha, hka⟩ := (hinv _).1 hmem
          exact ⟨a, by rw [happ]; exact List.mem_append_left _ ha, hka⟩
        · exact g4 j hj
      · intro k
        rw [g5 k]
        by_cases hk : k = trimChars i.text
        · subst hk
          have hex : ∃ x ∈ acc, (fun j => decide (trimChars j.text = trimChars i.text)) x := by
            obtain ⟨a, ha, hka⟩ := (hinv _).1 hmem
            exact ⟨a, ha, by simp [hka]⟩
          obtain ⟨v, hv⟩ := Option.isSome_iff_exists.mp (List.find?_isSome.mpr hex)
          rw [hv]
          simp [Option.or]
        · have hd : (decide (trimChars i.text = k)) = false :=
            decide_eq_false (fun h => hk h.symm)
          rw [List.find?_cons, hd]
    · rw [show dedupIssuesStep (seen, acc) i = (trimChars i.text :: seen, acc ++ [i]) from by
        simp only [dedupIssuesStep]
        rw [if_neg hmem]]
      have hinv' : ∀ k, k ∈ trimChars i.text :: seen ↔
          ∃ j ∈ acc ++ [i], trimChars j.text = k := by
        intro k
        constructor
        · intro hk
          rcases List.mem_cons.mp hk with rfl | hk
          · exact ⟨i, List.mem_append_right _ (by simp), rfl⟩
          · obtain ⟨a, ha, hka⟩ := (hinv k).1 hk
            exact ⟨a, List.mem_append_left _ ha, hka⟩
        · rintro ⟨j, hj, hkj⟩
          rcases List.mem_append.mp hj with hj | hj
          · exact List.mem_cons_of_mem _ ((hinv k).2 ⟨j, hj, hkj⟩)
          · rw [List.mem_singleton] at hj
            subst hj
            rw [← hkj]
            exact List.mem_cons_self _ _
      have hpw' : List.Pairwise (fun a b => trimChars a.text ≠ trimChars b.text)
          (acc ++ [i]) := by
        rw [List.pairwise_append]
        refine ⟨hpw, List.pairwise_singleton _ _, ?_⟩
        intro a ha b hb
        rw [List.mem_singleton] at hb
        subst hb
        exact fun hcontra => hmem ((hinv _).2 ⟨a, ha, hcontra⟩)
      obtain ⟨g1, g2, ⟨app, happ, hsub⟩, g4, g5⟩ := ih _ _ hinv' hpw'
      refine ⟨g1, g2, ⟨i :: app, ?_, List.Sublist.cons₂ i hsub⟩, ?_, ?_⟩
      · rw [happ, List.append_assoc]
        rfl
      · intro j hj
        rcases List.mem_cons.mp hj with rfl | hj
        · refine ⟨j, ?_, rfl⟩
          rw [happ]
          exact List.mem_append_left _ (List.mem_append_right _ (by simp))
        · exact g4 j hj
      · intro k
        rw [g5 k]
        by_cases hk : k = trimChars i.text
        · subst hk
          have hnone : acc.find? (fun j => decide (trimChars j.text = trimChars i.text)) = none := by
            rw [List.find?_eq_none]
            intro x hx hpx
            rw [decide_eq_true_eq] at hpx
            exact hmem ((hinv _).2 ⟨x, hx, hpx⟩)
          have hsome : (acc ++ [i]).find?
              (fun j => decide (trimChars j.text = trimChars i.text)) = some i := by
            rw [List.find?_append, hnone]
            simp [List.find?, Option.or]
          rw [hsome, hnone, List.find?_cons]
          simp [Option.or]
        · have hd : (decide (trimChars i.text = k)) = false :=
            decide_eq_false (fun h => hk h.symm)
          have heq : (acc ++ [i]).find? (fun j => decide (trimChars j.text = k)) =
              acc.find? (fun j => decide (trimChars j.text = k)) := by
            rw [List.find?_append]
            have hnone1 : List.find? (fun j => decide (trimChars j.text = k)) [i] = none := by
              simp [List.find?, hd]
            rw [hnone1]
            cases acc.find? (fun j => decide (trimChars j.text = k)) <;> rfl
          rw [heq, List.find?_cons, hd]

/-- C5: the issues list accumulated by `analyzeInChunks` over the per-chunk
issue lists never holds two entries with equal trimmed text, is a
subsequence of the concatenated per-chunk issues, covers every reported
trimmed text, and for each trimmed text keeps exactly the first occurrence
(so later duplicates arising from overlapping chunks are discarded). -/
theorem C5_analyzeInChunks_dedup (chunkResults : List (List Issue)) :
    List.Pairwise (fun a b => trimChars a.text ≠ trimChars b.text)
      (dedupIssues chunkResults) ∧
    (dedupIssues chunkResults).Sublist chunkResults.flatten ∧
    (∀ issue ∈ chunkResults.flatten, ∃ j ∈ dedupIssues chunkResults,
      trimChars j.text = trimChars issue.text) ∧
    (∀ k, (dedupIssues chunkResults).find? (fun j => decide (trimChars j.text = k)) =
      chunkResults.flatten.find? (fun j => decide (trimChars j.text = k))) := by
  have hbase : ∀ k : List Char, k ∈ ([] : List (List Char)) ↔
      ∃ i ∈ ([] : List Issue), trimChars i.text = k := by
    simp
  obtain ⟨g1, g2, ⟨app, happ, hsub⟩, g4, g5⟩ :=
    dedupIssuesStep_fold_spec chunkResults.flatten [] [] hbase List.Pairwise.nil
  have hdef : dedupIssues chunkResults =
      (chunkResults.flatten.foldl dedupIssuesStep ([], [])).2 := by
    unfold dedupIssues
    rw [dedupIssues_foldl_flatten]
  refine ⟨?_, ?_, ?_, ?_⟩
  · rw [hdef]
    exact g2
  · rw [hdef, happ]
    simpa using hsub
  · intro issue hissue
    rw [hdef]
    exact g4 issue hissue
  · intro k
    rw [hdef, g5 k]
    cases chunkResults.flatten.find? (fun j => decide (trimChars j.text = k)) <;> rfl

/-- Witness for C5: the duplicate `" ab"` arriving from a second
(overlapping) chunk is dropped, because its trimmed text equals the trimmed
text of the already-kept `"ab"`. -/
theorem C5_witness :
    dedupIssues [[⟨"ab".data, [], [], []⟩],
        [⟨" ab".data, [], [], []⟩, ⟨"cd".data, [], [], []⟩]] =
      [⟨"ab".data, [], [], []⟩, ⟨"cd".data, [], [], []⟩] ∧
    List.Pairwise (fun a b => trimChars a.text ≠ trimChars b.text)
      (dedupIssues [[⟨"ab".data, [], [], []⟩],
        [⟨" ab".data, [], [], []⟩, ⟨"cd".data, [], [], []⟩]]) :=
  ⟨by decide, (C5_analyzeInChunks_dedup _).1⟩

/-- If no position matches the URL pattern, the scan finds nothing. -/
lemma matchDocPattern_eq_none :
    ∀ url : List Char, (∀ n, docMatchHere (url.drop n) = false) →
      matchDocPattern url = none := by
  intro url
  induction url with
  | nil => intro _; rfl
  | cons c rest ih =>
    intro h
    rw [matchDocPattern]
    have h0 := h 0
    rw [List.drop_zero] at h0
    rw [h0]
    simp only [Bool.false_eq_true, if_false]
    apply ih
    intro n
    have hn := h (n + 1)
    rwa [List.drop_succ_cons] at hn

/-- The scan returns the capture of the leftmost matching position. -/
lemma matchDocPattern_eq_some :
    ∀ (url : List Char) (n : ℕ), docMatchHere (url.drop n) = true →
      (∀ m < n, docMatchHere (url.drop m) = false) →
      matchDocPattern url = some ((url.drop (n + 12)).takeWhile isIdChar) := by
  intro url
  induction url with
  | nil =>
    intro n hn _
    rw [List.drop_nil] at hn
    exact absurd hn (by decide)
  | cons c rest ih =>
    intro n hn hmin
    cases n with
    | zero =>
      rw [List.drop_zero] at hn
      rw [matchDocPattern, hn]
      simp
    | succ n =>
      have h0 := hmin 0 (Nat.succ_pos n)
      rw [List.drop_zero] at h0
      rw [matchDocPattern, h0]
      simp only [Bool.false_eq_true, if_false]
      rw [List.drop_succ_cons] at hn
      have hres := ih n hn (fun m hm => by
        have := hmin (m + 1) (Nat.succ_lt_succ hm)
        rwa [List.drop_succ_cons] at this)
      rw [hres]
      rw [show (n + 1 + 12) = (n + 12) + 1 from by omega, List.drop_succ_cons]

/-- A string of ID characters contains no `/`, so the URL pattern cannot
match anywhere in it. -/
lemma docMatchHere_false_of_all_id (url : List Char)
    (hall : url.all isIdChar = true) : ∀ n, docMatchHere (url.drop n) = false := by
  intro n
  by_contra hcon
  rw [Bool.not_eq_false] at hcon
  have hpre : ("/document/d/".data).isPrefixOf (url.drop n) = true := by
    rw [docMatchHere, Bool.and_eq_true] at hcon
    exact hcon.1
  rw [ List.isPrefixOf_iff_prefix] at hpre
  obtain ⟨t, ht⟩ := hpre
  have hslash : '/' ∈ url.drop n := by
    rw [← ht]
    exact List.mem_append_left _ (by decide)
  have hmem : '/' ∈ url := (List.drop_suffix n url).sublist.subset hslash
  have := (List.all_eq_true.mp hall) '/' hmem
  exact absurd this (by decide)

/-- C7 (amended): when some position of the input starts the URL pattern
`/document/d/` followed by at least one ID character, `extractDocumentId`
returns the maximal ID run after the leftmost such position; a *non-empty*
input consisting entirely of ID characters is returned whole; every other
input yields `null`.  (The empty string is the one input the original claim
misses: it consists — vacuously — of class characters only, yet the bare-ID
regex `/^([a-zA-Z0-9-_]+)$/` requires at least one character, so the
function returns `null`.) -/
theorem C7_extractDocumentId_spec :
    (∀ (url : List Char) (n : ℕ), docMatchHere (url.drop n) = true →
      (∀ m < n, docMatchHere (url.drop m) = false) →
      extractDocumentId url = some ((url.drop (n + 12)).takeWhile isIdChar)) ∧
    (∀ url : List Char, url ≠ [] → url.all isIdChar = true →
      extractDocumentId url = some url) ∧
    (∀ url : List Char, (∀ n, docMatchHere (url.drop n) = false) →
      (url = [] ∨ url.all isIdChar = false) →
      extractDocumentId url = none) := by
  refine ⟨?_, ?_, ?_⟩
  · intro url n hn hmin
    unfold extractDocumentId
    rw [matchDocPattern_eq_some url n hn hmin]
  · intro url hne hall
    unfold extractDocumentId
    rw [matchDocPattern_eq_none url (docMatchHere_false_of_all_id url hall)]
    rw [if_pos ⟨hne, hall⟩]
  · intro url hno hother
    unfold extractDocumentId
    rw [matchDocPattern_eq_none url hno]
    rw [if_neg]
    rintro ⟨hne, hall⟩
    rcases hother with rfl | hfalse
    · exact hne rfl
    · rw [hall] at hfalse
      exact absurd hfalse (by decide)

/-- Witness for C7: a full URL yields its ID, and a bare ID is returned
whole. -/
theorem C7_witness :
    extractDocumentId ("/document/d/abc".data) = some ("abc".data) ∧
    extractDocumentId ("abc123".data) = some ("abc123".data) := by
  constructor
  · have h := C7_extractDocumentId_spec.1 ("/document/d/abc".data) 0 (by decide)
      (fun m hm => absurd hm (Nat.not_lt_zero m))
    rw [h]
    decide
  · exact C7_extractDocumentId_spec.2.1 ("abc123".data) (by decide) (by decide)

/-- Counterexample for C7 as stated: the empty string consists (vacuously)
entirely of characters from the ID class, yet the function returns `null`,
not the input itself. -/
theorem C7_counterexample :
    ("".data).all isIdChar = true ∧
    extractDocumentId ("".data) ≠ some ("".data) := by
  decide

/-- C8 (amended): `detectUserIntent` classifies by the first matching
pattern, but the extract-new-docs pattern
`/extract|scan|check.*new|update.*docs|newly added|get.*new.*documents/`
is tested *before* the patterns the claim lists.  Provided it does not
match: a message matching the analyze-with-comments pattern with a Docs URL
yields `analyze_with_comments` carrying the URL's document id; a message
matching the review pattern with a Docs URL, and no earlier pattern, yields
`review_document` with that id; and a message matching none of the
function's patterns (extract, analyze-with-comments, review-with-URL, sync,
document-name, tabs, query-documents) yields `general_chat`. -/
theorem C8_detectUserIntent_precedence :
    (∀ (message id : List Char),
      extractPat (message.map Char.toLower) = false →
      analyzeCommentsPat (message.map Char.toLower) = true →
      matchDocsUrl message = some id →
      detectUserIntent message = Intent.analyze_with_comments id) ∧
    (∀ (message id : List Char),
      extractPat (message.map Char.toLower) = false →
      analyzeCommentsPat (message.map Char.toLower) = false →
      reviewPat (message.map Char.toLower) = true →
      matchDocsUrl message = some id →
      detectUserIntent message = Intent.review_document id) ∧
    (∀ message : List Char,
      extractPat (message.map Char.toLower) = false →
      analyzeCommentsPat (message.map Char.toLower) = false →
      (reviewPat (message.map Char.toLower) = false ∨ matchDocsUrl message = none) →
      syncPat (message.map Char.toLower) = false →
      docNamePat (message.map Char.toLower) = false →
      tabsPat (message.map Char.toLower) = false →
      queryDocsPat (message.map Char.toLower) = false →
      detectUserIntent message = Intent.general_chat) := by
  refine ⟨?_, ?_, ?_⟩
  · intro message id h1 h2 h3
    simp [detectUserIntent, h1, h2, h3]
  · intro message id h1 h2 h3 h4
    simp [detectUserIntent, h1, h2, h3, h4]
  · intro message h1 h2 h3 h4 h5 h6 h7
    rcases h3 with h3 | h3 <;> simp [detectUserIntent, h1, h2, h3, h4, h5, h6, h7]

/-- Witness for C8: an analyze-with-comments request with a URL, and a plain
greeting. -/
theorem C8_witness :
    detectUserIntent ("analyze comments https://docs.google.com/document/d/abc".data) =
      Intent.analyze_with_comments ("abc".data) ∧
    detectUserIntent ("hello there".data) = Intent.general_chat :=
  ⟨C8_detectUserIntent_precedence.1 _ _ (by decide) (by decide) (by decide),
   C8_detectUserIntent_precedence.2.2 _ (by decide) (by decide) (Or.inl (by decide))
     (by decide) (by decide) (by decide) (by decide)⟩

/-- Counterexample for C8 as stated: this message matches the
analyze-with-comments pattern and carries a Docs URL, so the claim says
`analyze_with_comments` — but the code tests the extract-new-docs pattern
first and returns `extract_new_docs`. -/
theorem C8_counterexample :
    detectUserIntent
        ("extract and analyze comments https://docs.google.com/document/d/abc".data) =
      Intent.extract_new_docs ∧
    analyzeCommentsPat
        (("extract and analyze comments https://docs.google.com/document/d/abc".data).map
          Char.toLower) = true ∧
    matchDocsUrl
        ("extract and analyze comments https://docs.google.com/document/d/abc".data) =
      some ("abc".data) := by
  decide

/-- C6 (amended): `doPost` and `processMessage` always return an object with
`success` and `message` (they are total into `ChatResult`, every catch being
at the top of its entry point); a parse failure, a failed document read, a
throwing analysis, and a throwing response generation each produce
`{success: false, message: ...}` with the error text in the message.
However, a throw inside best-effort context gathering (the embedding call of
`retrieveFromPinecone`) is converted to an empty rule list and does *not*
force a failure: the request still succeeds whenever response generation
succeeds — which refutes the original "whenever any internal step throws"
wording (see the counterexample). -/
theorem C6_doPost_processMessage_errors :
    (∀ (env : ChatEnv) (body e : List Char),
      env.parsePost body = Except.error e →
      doPost env body = { success := false, message := e }) ∧
    (∀ (env : ChatEnv) (body msg : List Char) (hist : List HistMsg),
      env.parsePost body = Except.ok (msg, hist) →
      doPost env body = processMessage env msg hist) ∧
    (∀ (env : ChatEnv) (msg : List Char) (hist : List HistMsg) (e : List Char),
      (isDocumentReviewRequest msg = false ∨ extractDocumentId msg = none) →
      env.generateResponse msg (gatherContext env msg) hist = Except.error e →
      processMessage env msg hist =
        { success := false,
          message := "Error processing your question: ".data ++ e }) ∧
    (∀ (env : ChatEnv) (msg : List Char) (hist : List HistMsg) (docId e : List Char),
      isDocumentReviewRequest msg = true → extractDocumentId msg = some docId →
      env.openDoc docId = Except.error e →
      processMessage env msg hist =
        { success := false, message := formatErrorMessage docId e }) ∧
    (∀ (env : ChatEnv) (msg : List Char) (hist : List HistMsg)
        (docId title text e : List Char),
      isDocumentReviewRequest msg = true → extractDocumentId msg = some docId →
      env.openDoc docId = Except.ok (title, text) →
      env.analyzeDoc ⟨true, title, text, docId, []⟩
        (retrieveFromPinecone env text 10) (env.searchDrive text) hist =
          Except.error e →
      processMessage env msg hist =
        { success := false, message := "Error: ".data ++ e }) ∧
    (∀ (env : ChatEnv) (msg e : List Char),
      env.embed (msg.take 1000) = Except.error e →
      (gatherContext env msg).pineconeRules = []) ∧
    (∀ (env : ChatEnv) (msg : List Char) (hist : List HistMsg) (r : List Char),
      (isDocumentReviewRequest msg = false ∨ extractDocumentId msg = none) →
      env.generateResponse msg (gatherContext env msg) hist = Except.ok r →
      processMessage env msg hist =
        { success := true, message := r,
          context := some (gatherContext env msg) }) := by
  refine ⟨?_, ?_, ?_, ?_, ?_, ?_, ?_⟩
  · intro env body e h
    unfold doPost
    rw [h]
  · intro env body msg hist h
    unfold doPost
    rw [h]
  · intro env msg hist e hrev hgen
    rcases hrev with hrev | hrev
    · simp [processMessage, handleConversationalQuery, hrev, hgen]
    · by_cases hd : isDocumentReviewRequest msg <;>
        simp [processMessage, handleConversationalQuery, hd, hrev, hgen]
  · intro env msg hist docId e hrev hex hopen
    simp [processMessage, hrev, hex, reviewDocument, readGoogleDoc, hopen]
  · intro env msg hist docId title text e hrev hex hopen hana
    simp [processMessage, hrev, hex, reviewDocument, readGoogleDoc, hopen, hana]
  · intro env msg e hembed
    simp [gatherContext, retrieveFromPinecone, hembed]
  · intro env msg hist r hrev hgen
    rcases hrev with hrev | hrev
    · simp [processMessage, handleConversationalQuery, hrev, hgen]
    · by_cases hd : isDocumentReviewRequest msg <;>
        simp [processMessage, handleConversationalQuery, hd, hrev, hgen]

/-- Witness for C6: a failing body parse is reported as
`{success: false, message}`. -/
theorem C6_witness :
    doPost chatEnvCE ("x".data) = { success := false, message := "bad json".data } :=
  C6_doPost_processMessage_errors.1 chatEnvCE ("x".data) ("bad json".data) rfl

/-- Counterexample for C6 as stated: in `chatEnvCE` the embedding step (an
internal step of `processMessage`'s context gathering) throws, yet the
returned object has `success = true` — context-gathering failures are
swallowed into an empty result, not converted into `{success: false}`. -/
theorem C6_counterexample :
    chatEnvCE.embed (("hello".data).take 1000) =
      Except.error ("embedding down".data) ∧
    (processMessage chatEnvCE ("hello".data) []).success = true := by
  constructor
  · rfl
  · decide

end Automations
